import Mathlib

/-!
Verification of the Starlite/Litestar Rust route-map extension.

The development shallowly embeds the two revisions of the router kept in the
repository:

* the component-set trie revision (`lib.rs` / `route_map.rs`): nodes carry a
  `components` set, literal children plus a `"*"` placeholder child key,
  optional `path_parameters`, an optional `asgi_handlers` table, an `is_asgi`
  flag and an optional `static_path`;
* the handler-group trie revision (`search.rs` / `wrappers.rs`): nodes carry
  literal children, at most one placeholder child and an optional
  `HandlerGroup`; plain literal routes live in a separate table.

Strings are modelled as Lean `String`, with the character-level algorithms
(normalisation, splitting, `str::replace`) defined on `List Char`.
Handlers are opaque to the router and are modelled as natural numbers.
-/

namespace RMV

/-- Association-list lookup, modelling `HashMap::get`. -/
def alookup {κ α : Type} [DecidableEq κ] : List (κ × α) → κ → Option α
  | [], _ => none
  | (k, v) :: t, key => if k = key then some v else alookup t key

/-- Association-list insert-or-overwrite, modelling `HashMap::insert` /
`entry(..).or_insert(..)` followed by in-place mutation of the entry. -/
def aupdate {κ α : Type} [DecidableEq κ] : List (κ × α) → κ → α → List (κ × α)
  | [], key, v => [(key, v)]
  | (k, w) :: t, key, v => if k = key then (k, v) :: t else (k, w) :: aupdate t key v

/-- Set-like insertion into a list of strings, modelling `HashSet::insert`. -/
def sinsert (l : List String) (s : String) : List String :=
  if s ∈ l then l else l ++ [s]

/-- The separator character. -/
def sep : Char := '/'

/-- Opening parameter-delimiter character (left curly brace). -/
def lbrace : Char := Char.ofNat 123

/-- Closing parameter-delimiter character (right curly brace). -/
def rbrace : Char := Char.ofNat 125

/-- Left trim of leading whitespace, as in Rust `str::trim` (leading side). -/
def trimLeftL (l : List Char) : List Char := l.dropWhile Char.isWhitespace

/-- Right trim of trailing whitespace, as in Rust `str::trim` (trailing side). -/
def trimRightL (l : List Char) : List Char := (l.reverse.dropWhile Char.isWhitespace).reverse

/-- Full surrounding-whitespace trim, as in Rust `str::trim`. -/
def trimL (l : List Char) : List Char := trimRightL (trimLeftL l)

/-- Auxiliary separator-run collapser; the flag records whether the previous
kept character was the separator. -/
def collapseAux : Bool → List Char → List Char
  | _, [] => []
  | prevSep, c :: rest =>
    if c = sep then
      if prevSep then collapseAux true rest
      else sep :: collapseAux true rest
    else c :: collapseAux false rest

/-- Collapses every run of consecutive separators into a single separator. -/
def collapseL (l : List Char) : List Char := collapseAux false l

/-- Whether a character list ends with the separator. -/
def endsSepL (l : List Char) : Bool := l.getLast? = some sep

/-- Whether a character list starts with the separator. -/
def startsSepL (l : List Char) : Bool := l.head? = some sep

/-- Modelled from the spec: the body of `util::normalize_path`, whose source
file is not in the tree (only its call site in `search.rs` is).  Rules of
section 4.1, in the listed order: trim surrounding whitespace; if empty after
the trim the result is the root; collapse runs of consecutive separators;
strip a single trailing separator unless the whole path is the root; prepend
a leading separator when missing. -/
def normalizeL (l : List Char) : List Char :=
  let t := trimL l
  if t = [] then [sep]
  else
    let c := collapseL t
    let s := if c ≠ [sep] ∧ endsSepL c then c.dropLast else c
    if startsSepL s then s else sep :: s

/-- String wrapper of `normalizeL`. -/
def normalizePath (s : String) : String := ⟨normalizeL s.data⟩

/-- Rust `str::split('/')`: the list of (possibly empty) runs between
separators; a list of length `k` separators yields `k + 1` pieces. -/
def splitSepL : List Char → List (List Char)
  | [] => [[]]
  | c :: rest =>
    if c = sep then [] :: splitSepL rest
    else
      match splitSepL rest with
      | [] => [[c]]
      | s :: ss => (c :: s) :: ss

/-- The non-empty pieces of the separator split, in order; this is the
filtered split used by `get_base_components`. -/
def segsL (l : List Char) : List (List Char) := (splitSepL l).filter (fun x => x ≠ [])

/-- The non-separator test, named so that it appears uniformly in goals. -/
def nsep (c : Char) : Bool := decide (c ≠ sep)

/-- Independent declarative formulation of the non-empty `'/'`-separated
substrings: the maximal runs of non-separator characters, in order. -/
def segsD : List Char → List (List Char)
  | [] => []
  | c :: t =>
    if c = sep then segsD t
    else (c :: t.takeWhile nsep) :: segsD (t.dropWhile nsep)
termination_by l => l.length
decreasing_by
  all_goals simp_wf
  all_goals first
    | omega
    | exact Nat.lt_succ_of_le (List.Sublist.length_le (List.dropWhile_sublist _))

/-- Embedding of `get_base_components` (`util.rs`): splits the path on the
separator, keeps the non-empty components, and puts the root separator in
front as the first component. -/
def getBaseComponents (s : String) : List String :=
  "/" :: (segsL s.data).map (fun l => ⟨l⟩)

/-- List-level check that `pat` is an initial segment of `l`, modelling the
prefix test performed by Rust pattern matching inside `str::replace`. -/
def startsWithL : List Char → List Char → Bool
  | [], _ => true
  | _ :: _, [] => false
  | p :: ps, c :: cs => p = c && startsWithL ps cs

/-- Fuelled worker for `str::replace`; the fuel only serves structural
recursion and is irrelevant whenever it dominates the list length, which the
wrapper below guarantees. -/
def replaceAllFuel (pat rep : List Char) : Nat → List Char → List Char
  | _, [] => []
  | 0, l => l
  | f + 1, c :: rest =>
    if pat ≠ [] ∧ startsWithL pat (c :: rest) = true then
      rep ++ replaceAllFuel pat rep f ((c :: rest).drop pat.length)
    else
      c :: replaceAllFuel pat rep f rest

/-- Embedding of Rust `str::replace(pat, rep)`: every leftmost non-overlapping
occurrence of `pat` is replaced by `rep`.  The router only calls it with a
non-empty pattern; for an empty pattern this model replaces nothing. -/
def replaceAllL (pat rep l : List Char) : List Char := replaceAllFuel pat rep l.length l

/-- String wrapper of `replaceAllL`. -/
def replaceAll (s pat rep : String) : String := ⟨replaceAllL pat.data rep.data s.data⟩

/-- String wrapper of `trimL`, modelling Rust `str::trim`. -/
def strTrim (s : String) : String := ⟨trimL s.data⟩

/-- Handlers are opaque to the router; they are stored and returned by
reference and never inspected, so a natural-number handle models them. -/
abbrev Handler := Nat

/-- A path-parameter definition as the router sees it: a canonical full-text
token (the text between the parameter delimiters in the template) and a name.
The router compares definitions by value equality only. -/
structure OParam where
  name : String
  full : String
deriving DecidableEq, Repr

/-- Handler kinds of the per-method dispatch table, from the spec's
`HandlerKind` enumeration for the handler-group revision. -/
inductive HandlerType where
  | websocket
  | httpGet
  | httpPost
  | httpDelete
  | httpPatch
  | httpPut
  | httpHead
  | httpOther (method : String)
deriving DecidableEq, Repr

/-- Modelled from the spec: the `HandlerGroup` tagged union of the
handler-group revision; its defining source file is not in the tree (only
`search.rs`, which consumes it, and the tests are).  Variants follow
section 3: a static-asset mapping, a catch-all handler, and a per-method
dispatch table, the latter two carrying their parameter-definition set. -/
inductive HandlerGroup where
  | static (path : String) (handler : Handler)
  | catchall (pathParameters : List OParam) (handler : Handler)
  | dispatch (pathParameters : List OParam) (handlers : List (HandlerType × Handler))
deriving DecidableEq, Repr

/-- Modelled from the spec: `HandlerGroup::static_path`, used by the lookup in
`search.rs`; only a `Static` group carries a static path. -/
def HandlerGroup.staticPath? : HandlerGroup → Option String
  | .static p _ => some p
  | _ => none

/-- Union of two dispatch tables: entries of the new table overwrite same-key
entries of the old one. -/
def unionHandlers (old new : List (HandlerType × Handler)) : List (HandlerType × Handler) :=
  new.foldl (fun m kv => aupdate m kv.1 kv.2) old

/-- Modelled from the spec: `HandlerGroup::merge` (section 4.4), invoked when
two declarations terminate at the same node or plain-route entry.  Two static
groups keep the existing one; a static group paired with anything else is a
conflict; two catch-alls require equal parameter sets and the new handler
replaces the old; a catch-all paired with a dispatch table is always a
conflict; two dispatch tables require equal parameter sets and union their
method tables, the new entries overwriting. -/
def HandlerGroup.merge : HandlerGroup → HandlerGroup → Except String HandlerGroup
  | .static p h, .static _ _ => .ok (.static p h)
  | .static _ _, _ => .error "cannot have configured routes below a static path"
  | _, .static _ _ => .error "cannot have configured routes below a static path"
  | .catchall ps _, .catchall ps' h' =>
    if ps = ps' then .ok (.catchall ps h') else .error "conflicting path parameters"
  | .catchall _ _, .dispatch _ _ =>
    .error "catch-all handlers handle all methods - cannot coexist with method-specific handlers"
  | .dispatch _ _, .catchall _ _ =>
    .error "catch-all handlers handle all methods - cannot coexist with method-specific handlers"
  | .dispatch ps hs, .dispatch ps' hs' =>
    if ps = ps' then .ok (.dispatch ps (unionHandlers hs hs'))
    else .error "conflicting path parameters"

/-- A trie node of the handler-group revision: literal children, at most one
placeholder child, and an optional handler group. -/
inductive Node where
  | mk (children : List (String × Node)) (placeholderChild : Option Node)
       (handlerGroup : Option HandlerGroup)

/-- Literal children of a node. -/
def Node.children : Node → List (String × Node)
  | .mk c _ _ => c

/-- The placeholder child of a node, when present. -/
def Node.placeholderChild : Node → Option Node
  | .mk _ p _ => p

/-- The handler group of a node, when present. -/
def Node.handlerGroup : Node → Option HandlerGroup
  | .mk _ _ h => h

/-- `Node::default()`: the empty node. -/
def emptyNode : Node := .mk [] none none

/-- Modelled from the spec: `util::param_set`, whose source file is not in
the tree; it collects the declared parameter full-tokens that the insertion
walk matches placeholder segments against. -/
def paramSetOf (ps : List OParam) : List String := ps.map OParam.full

/-- The placeholder test of `find_insert_handler_group` (`search.rs`): the
segment starts with the opening delimiter, ends with the closing delimiter,
and the text between them is one of the declared parameter full-tokens. -/
def isPlaceholderSeg (paramSet : List String) (s : String) : Bool :=
  decide (s.data.head? = some lbrace) && decide (s.data.getLast? = some rbrace)
    && paramSet.contains (⟨(s.data.drop 1).dropLast⟩ : String)

/-- The trie descent of `find_insert_handler_group` (`search.rs`): placeholder
segments descend into the single placeholder child and all other segments into
the literal child keyed by the exact segment text, creating empty nodes when
absent; at the terminal node the new group is installed, or merged with the
existing one. -/
def insertWalk (paramSet : List String) (hg : HandlerGroup) : Node → List String → Except String Node
  | n, [] =>
    match n.handlerGroup with
    | some existing => (existing.merge hg).map (fun m => .mk n.children n.placeholderChild (some m))
    | none => .ok (.mk n.children n.placeholderChild (some hg))
  | n, c :: rest =>
    if isPlaceholderSeg paramSet c then
      (insertWalk paramSet hg (n.placeholderChild.getD emptyNode) rest).map
        (fun ch => .mk n.children (some ch) n.handlerGroup)
    else
      (insertWalk paramSet hg ((alookup n.children c).getD emptyNode) rest).map
        (fun ch => .mk (aupdate n.children c ch) n.placeholderChild n.handlerGroup)

/-- The route map of the handler-group revision. -/
structure RouteMap where
  root : Node
  plainRoutes : List (String × HandlerGroup)
  staticPaths : List String

/-- Embedding of `find_insert_handler_group` (`search.rs`): a route with
parameter definitions, or one registered static, descends the trie; every
other route goes to the plain-route table; in both cases an occupied terminal
position merges the new group with the existing one. -/
def findInsertHandlerGroup (rm : RouteMap) (path : String) (pathParameters : List OParam)
    (isStatic : Bool) (hg : HandlerGroup) : Except String RouteMap :=
  if !pathParameters.isEmpty || isStatic then
    (insertWalk (paramSetOf pathParameters) hg rm.root (getBaseComponents path)).map
      (fun r => { rm with root := r })
  else
    match alookup rm.plainRoutes path with
    | some existing =>
      (existing.merge hg).map (fun m => { rm with plainRoutes := aupdate rm.plainRoutes path m })
    | none => .ok { rm with plainRoutes := aupdate rm.plainRoutes path hg }

/-- The trie walk of `RouteMap::find_handler_group` (`search.rs`): at each
component an exact literal child is preferred; failing that the placeholder
child is taken and the component text recorded as a positional parameter
value; failing both, a static group at the current node stops the walk,
rewriting the path by `str::replace` of the static path with the empty string
unless the static path is the root; with no static group the lookup fails. -/
def walkLoop : Node → List String → String → List String → Option (Node × String × List String)
  | n, [], path, params => some (n, path, params)
  | n, c :: rest, path, params =>
    match alookup n.children c with
    | some child => walkLoop child rest path params
    | none =>
      match n.placeholderChild with
      | some child => walkLoop child rest path (params ++ [c])
      | none =>
        match n.handlerGroup.bind HandlerGroup.staticPath? with
        | some sp => some (n, if sp ≠ "/" then replaceAll path sp "" else path, params)
        | none => none

/-- The result of a successful lookup: the matched handler group, the ordered
raw parameter values, and the rewritten path when it differs from the input. -/
structure FindResult where
  handlerGroup : HandlerGroup
  paramValues : List String
  changedPath : Option String
deriving DecidableEq, Repr

/-- Embedding of `RouteMap::find_handler_group` (`search.rs`): normalize the
path, consult the plain-route table, otherwise walk the trie; the terminal
node must carry a handler group; the changed path is reported when the final
path differs from the input. -/
def findHandlerGroup (rm : RouteMap) (fullPath : String) : Option FindResult :=
  let path0 := normalizePath fullPath
  match alookup rm.plainRoutes path0 with
  | some hg => some ⟨hg, [], if path0 = fullPath then none else some path0⟩
  | none =>
    match walkLoop rm.root (getBaseComponents path0) path0 [] with
    | none => none
    | some (n, path, params) =>
      match n.handlerGroup with
      | none => none
      | some hg => some ⟨hg, params, if path = fullPath then none else some path⟩

/-- The typed request-time and build-time failures raised through PyO3
(`lib.rs`), plus a distinguished outcome for a Rust `unwrap` panic, which
PyO3 surfaces as a panic exception rather than as one of the typed router
exceptions. -/
inductive PyErr where
  | notFound
  | methodNotAllowed
  | improperlyConfigured
  | panicked
deriving DecidableEq, Repr

/-- A trie node of the component-set revision (`lib.rs`): a component set, a
literal-children map in which `"*"` keys the placeholder child, optional
parameter definitions, an optional method-keyed handler table, the catch-all
flag and an optional static path. -/
inductive ONode where
  | mk (components : List String) (children : List (String × ONode))
       (pathParameters : Option (List OParam))
       (asgiHandlers : Option (List (String × Handler)))
       (isAsgi : Bool) (staticPath : Option String)

/-- Component set of a node. -/
def ONode.components : ONode → List String
  | .mk c _ _ _ _ _ => c

/-- Children map of a node. -/
def ONode.children : ONode → List (String × ONode)
  | .mk _ ch _ _ _ _ => ch

/-- Recorded parameter definitions of a node. -/
def ONode.pathParameters : ONode → Option (List OParam)
  | .mk _ _ pp _ _ _ => pp

/-- Handler table of a node. -/
def ONode.asgiHandlers : ONode → Option (List (String × Handler))
  | .mk _ _ _ ah _ _ => ah

/-- Catch-all flag of a node. -/
def ONode.isAsgi : ONode → Bool
  | .mk _ _ _ _ ia _ => ia

/-- Static path recorded at a node. -/
def ONode.staticPath : ONode → Option String
  | .mk _ _ _ _ _ sp => sp

/-- `Node::new()` of the component-set revision. -/
def ONode.empty : ONode := .mk [] [] none none false none

/-- A route declaration as the router reads it off the Python route object:
for an HTTP route the method-to-handler map, for a websocket or ASGI route the
single handler. -/
inductive RouteKind where
  | http (handlers : List (String × Handler))
  | websocket (handler : Handler)
  | asgi (handler : Handler)
deriving DecidableEq, Repr

/-- The fields of a route declaration consumed by `add_routes`. -/
structure ORoute where
  path : String
  pathParameters : List OParam
  kind : RouteKind
deriving DecidableEq, Repr

/-- The scope object: path, protocol type, HTTP method, and the settable
parsed-parameters field.  The parameter parser is an external collaborator
returning an opaque value, modelled as the pair of the recorded definitions
and the collected raw values it was called with. -/
structure ScopeS where
  path : String
  ty : String
  method : String
  pathParams : Option (List OParam × List String)
deriving DecidableEq, Repr

/-- The route map of the component-set revision. -/
structure ORouteMap where
  map : ONode
  staticPaths : List String
  plainRoutes : List String

/-- Embedding of `ConfigureNodeView::configure_route_map_node` (`lib.rs`):
records the parameter definitions on first touch, initialises the handler
table, marks static paths, and inserts the wrapped handlers for the route's
kind; `wrap` is the external middleware-stack builder, a black box to the
router. -/
def configureNode (wrap : Handler → Handler) (staticPaths : List String) (r : ORoute)
    (path : String) (params : List OParam) (cur : ONode) : ONode :=
  let pp := match cur.pathParameters with
    | none => some params
    | some x => some x
  let ah0 := cur.asgiHandlers.getD []
  let isStatic := staticPaths.contains path
  let sp := if isStatic then some path else cur.staticPath
  let ia0 := if isStatic then true else cur.isAsgi
  match r.kind with
  | .http hs =>
    ONode.mk cur.components cur.children pp
      (some (hs.foldl (fun m kv => aupdate m kv.1 (wrap kv.2)) ah0)) ia0 sp
  | .websocket h =>
    ONode.mk cur.components cur.children pp (some (aupdate ah0 "websocket" (wrap h))) ia0 sp
  | .asgi h =>
    ONode.mk cur.components cur.children pp (some (aupdate ah0 "asgi" (wrap h))) true sp

/-- The path preprocessing of `add_node_to_route_map` (`lib.rs`): each
declared parameter full-token is deleted from the path by `str::replace`, and
the remaining empty delimiter pairs are replaced by `"*"`. -/
def processedPath (path : String) (params : List OParam) : String :=
  replaceAll (params.foldl (fun p d => replaceAll p d.full "") path) "\x7b\x7d" "*"

/-- The trie descent of `add_node_to_route_map` (`lib.rs`): every component is
added to the component set and descended into through the literal children
map, creating nodes when absent; the terminal node is configured.  Returns
the updated subtree together with the configured terminal node. -/
def oinsert (wrap : Handler → Handler) (staticPaths : List String) (r : ORoute) (path : String)
    (params : List OParam) : ONode → List String → ONode × ONode
  | n, [] =>
    let t := configureNode wrap staticPaths r path params n
    (t, t)
  | n, c :: rest =>
    let child := (alookup n.children c).getD ONode.empty
    let (child', t) := oinsert wrap staticPaths r path params child rest
    (ONode.mk (sinsert n.components c) (aupdate n.children c child')
      n.pathParameters n.asgiHandlers n.isAsgi n.staticPath, t)

/-- Replaces the child of the root node under a full literal path key, for the
plain-route branch of `add_node_to_route_map`. -/
def setRootChild (root : ONode) (key : String) (child : ONode) : ONode :=
  ONode.mk root.components (aupdate root.children key child)
    root.pathParameters root.asgiHandlers root.isAsgi root.staticPath

/-- Embedding of `RouteMap::add_node_to_route_map` (`lib.rs`): routes with
parameter definitions, or registered static, preprocess their path and
descend the trie; all other routes are recorded as plain routes and live in a
child of the root keyed by the whole path.  Returns the updated map and the
configured terminal node. -/
def addNodeToRouteMap (wrap : Handler → Handler) (rm : ORouteMap) (r : ORoute) :
    ORouteMap × ONode :=
  if !r.pathParameters.isEmpty || rm.staticPaths.contains r.path then
    let path := processedPath r.path r.pathParameters
    let (map', t) :=
      oinsert wrap rm.staticPaths r path r.pathParameters rm.map (getBaseComponents path)
    ({ rm with map := map' }, t)
  else
    let rm1 := { rm with plainRoutes := sinsert rm.plainRoutes r.path }
    let child := (alookup rm1.map.children r.path).getD ONode.empty
    let t := configureNode wrap rm1.staticPaths r r.path r.pathParameters child
    ({ rm1 with map := setRootChild rm1.map r.path t }, t)

/-- Embedding of `RouteMap::add_routes` (`lib.rs`): each route is added to the
map, after which the parameter definitions recorded at its terminal node must
equal the route's own by value, or the loop stops with a configuration error,
leaving the map as mutated so far. -/
def addRoutes (wrap : Handler → Handler) (rm : ORouteMap) :
    List ORoute → ORouteMap × Except PyErr Unit
  | [] => (rm, .ok ())
  | r :: rest =>
    let (rm', cur) := addNodeToRouteMap wrap rm r
    match cur.pathParameters with
    | none => (rm', .error .panicked)
    | some recorded =>
      if recorded = r.pathParameters then addRoutes wrap rm' rest
      else (rm', .error .improperlyConfigured)

/-- Embedding of `RouteMap::traverse_to_node` (`lib.rs`): at each component an
exact member of the component set is followed; failing that the `"*"`
placeholder is followed, recording the component as a raw parameter value; a
static path at the current node rewrites the scope's stored path by
`str::replace` (unless the static path is the root) and skips the component;
otherwise the traversal fails as not-found.  Missing children for a present
component are an `unwrap` panic. -/
def otraverse : ONode → List String → ScopeS → List String →
    ScopeS × Except PyErr (ONode × List String)
  | n, [], sc, acc => (sc, .ok (n, acc))
  | n, c :: rest, sc, acc =>
    if n.components.contains c then
      match alookup n.children c with
      | some child => otraverse child rest sc acc
      | none => (sc, .error .panicked)
    else if n.components.contains "*" then
      match alookup n.children "*" with
      | some child => otraverse child rest sc (acc ++ [c])
      | none => (sc, .error .panicked)
    else
      match n.staticPath with
      | some sp =>
        if sp ≠ "/" then otraverse n rest { sc with path := replaceAll sc.path sp "" } acc
        else otraverse n rest sc acc
      | none => (sc, .error .notFound)

/-- The path preprocessing of `parse_scope_to_route` (`lib.rs`): trim the
scope's path and strip a single trailing separator unless the path is the
root. -/
def scopePathPrep (s : String) : String :=
  let p1 := strTrim s
  if p1 ≠ "/" ∧ endsSepL p1.data then ⟨p1.data.dropLast⟩ else p1

/-- Embedding of `RouteMap::parse_scope_to_route` (`lib.rs`): the scope's path
is trimmed and a single trailing separator stripped unless the path is the
root; plain routes resolve directly off the root's children, other paths
traverse the trie; the scope's parsed-parameters field is assigned from the
parameter parser before the terminal node's handler table is checked, and a
node without a handler table is a not-found failure. -/
def parseScopeToRoute (rm : ORouteMap) (sc : ScopeS) :
    ScopeS × Except PyErr (List (String × Handler) × Bool) :=
  let p := scopePathPrep sc.path
  if rm.plainRoutes.contains p then
    match alookup rm.map.children p with
    | none => (sc, .error .panicked)
    | some cur =>
      let sc2 := { sc with pathParams := some (cur.pathParameters.getD [], []) }
      match cur.asgiHandlers with
      | none => (sc2, .error .notFound)
      | some ah => (sc2, .ok (ah, cur.isAsgi))
  else
    match otraverse rm.map (getBaseComponents p) sc [] with
    | (sc1, .error e) => (sc1, .error e)
    | (sc1, .ok (cur, rawParams)) =>
      let sc2 := { sc1 with pathParams := some (cur.pathParameters.getD [], rawParams) }
      match cur.asgiHandlers with
      | none => (sc2, .error .notFound)
      | some ah => (sc2, .ok (ah, cur.isAsgi))

/-- Embedding of `RouteMap::resolve_asgi_app` (`lib.rs`): a catch-all node
returns its `"asgi"` handler; an HTTP scope selects by method and a missing
method is a method-not-allowed failure; every other scope selects the
`"websocket"` handler, and a missing entry there is an `unwrap` panic. -/
def resolveAsgiApp (rm : ORouteMap) (sc : ScopeS) : ScopeS × Except PyErr Handler :=
  match parseScopeToRoute rm sc with
  | (sc', .error e) => (sc', .error e)
  | (sc', .ok (handlers, isAsgi)) =>
    if isAsgi then
      match alookup handlers "asgi" with
      | some h => (sc', .ok h)
      | none => (sc', .error .panicked)
    else if sc'.ty = "http" then
      match alookup handlers sc'.method with
      | some h => (sc', .ok h)
      | none => (sc', .error .methodNotAllowed)
    else
      match alookup handlers "websocket" with
      | some h => (sc', .ok h)
      | none => (sc', .error .panicked)

/-- The owned child subtrees of a node, as drained from its children map by
the teardown loop. -/
def childNodes (n : ONode) : List ONode := n.children.map (fun kv => kv.2)

/-- Embedding of `impl Drop for RouteMap` (`lib.rs`): the explicit work-list
loop that pops an owned node from the stack and pushes its drained children,
counted by loop iterations; the recursion parameter of this definition is the
work list itself, never the tree structure.  The whole teardown is
`drainSteps (childNodes root)` iterations after the root's children are
drained onto the stack. -/
def drainSteps : List ONode → Nat
  | [] => 0
  | n :: rest => 1 + drainSteps (childNodes n ++ rest)
termination_by st => (st.map sizeOf).sum
decreasing_by
  simp_wf
  have key : ∀ ch : List (String × ONode),
      ((ch.map (fun kv => kv.2)).map sizeOf).sum < sizeOf ch := by
    intro ch
    induction ch with
    | nil => simp
    | cons a t ih =>
      obtain ⟨s, nd⟩ := a
      simp only [List.map_cons, List.sum_cons]
      simp only [List.cons.sizeOf_spec, Prod.mk.sizeOf_spec]
      omega
  have h2 := key n.children
  cases n with
  | mk c ch pp ah ia sp =>
    simp only [ONode.children] at h2
    simp only [childNodes, ONode.children, List.map_append, List.sum_append]
    simp only [ONode.mk.sizeOf_spec]
    omega

/-- The number of nodes of a subtree, defined through the drain loop run on
the singleton work list holding it. -/
def ONode.count (n : ONode) : Nat := drainSteps [n]

/-- Whether `pat` occurs as a contiguous sublist anywhere in the list. -/
def occursL (pat : List Char) : List Char → Bool
  | [] => pat.isEmpty
  | c :: t => startsWithL pat (c :: t) || occursL pat t

/-- The rewrite the claim under scrutiny predicts for a static match: remove
only the leading occurrence of the static path, once. -/
def stripLeadOnce (pre s : String) : String :=
  if startsWithL pre.data s.data then ⟨s.data.drop pre.data.length⟩ else s

/-- No two adjacent separators anywhere in the list. -/
def noDoubleSepL : List Char → Bool
  | a :: b :: t => (!(a = sep && b = sep)) && noDoubleSepL (b :: t)
  | _ => true

/-- A path in canonical form: free of surrounding whitespace, with a leading
separator, no separator runs, and no trailing separator unless it is the
bare root. -/
def CanonicalPath (l : List Char) : Prop :=
  trimL l = l ∧ startsSepL l = true ∧ noDoubleSepL l = true ∧
    (l = [sep] ∨ endsSepL l = false)

/-- The outcome of the lookup walk, stated declaratively: the walk consumed
every component and finished at a node; or it stopped early at a node whose
group records a static path; or it failed as not-found. -/
inductive LookupOut where
  | finished (n : Node) (params : List String)
  | staticHit (n : Node) (sp : String) (params : List String)
  | failNotFound

/-- Declarative transcription of the lookup tie-break policy of the spec: at
each segment an exact literal child is taken when one exists; only when no
literal child exists is the placeholder child taken, recording the segment
text as a positional parameter value in traversal order; only when neither
exists is the current node's static group consulted, stopping the walk; and
with no static group either the lookup fails as not-found. -/
inductive LookupRel : Node → List String → List String → LookupOut → Prop where
  | done {n : Node} {acc : List String} : LookupRel n [] acc (.finished n acc)
  | literal {n child : Node} {c : String} {rest acc : List String} {out : LookupOut} :
      alookup n.children c = some child → LookupRel child rest acc out →
      LookupRel n (c :: rest) acc out
  | placeholder {n child : Node} {c : String} {rest acc : List String} {out : LookupOut} :
      alookup n.children c = none → n.placeholderChild = some child →
      LookupRel child rest (acc ++ [c]) out → LookupRel n (c :: rest) acc out
  | staticStop {n : Node} {c : String} {rest acc : List String} {sp : String} :
      alookup n.children c = none → n.placeholderChild = none →
      n.handlerGroup.bind HandlerGroup.staticPath? = some sp →
      LookupRel n (c :: rest) acc (.staticHit n sp acc)
  | failure {n : Node} {c : String} {rest acc : List String} :
      alookup n.children c = none → n.placeholderChild = none →
      n.handlerGroup.bind HandlerGroup.staticPath? = none →
      LookupRel n (c :: rest) acc .failNotFound

/-- The meaning of a declarative outcome in terms of the walk's return value:
a static stop rewrites the path by replacing the static path with the empty
string unless the static path is the root. -/
def interpOut (path : String) : LookupOut → Option (Node × String × List String)
  | .finished n acc => some (n, path, acc)
  | .staticHit n sp acc => some (n, if sp ≠ "/" then replaceAll path sp "" else path, acc)
  | .failNotFound => none

/-- The static handler group registered at `/assets` in the worked example. -/
def hgAssets : HandlerGroup := .static "/assets" 7

/-- The handler-group route map holding `/assets` as a registered static
path with a catch-all static group, built by the source insertion. -/
def rmAssets : RouteMap :=
  match findInsertHandlerGroup ⟨emptyNode, [], ["/assets"]⟩ "/assets" [] true hgAssets with
  | .ok rm => rm
  | .error _ => ⟨emptyNode, [], []⟩

/-- The empty component-set route map. -/
def ormEmpty : ORouteMap := ⟨ONode.empty, [], []⟩

/-- Declaration of `GET /x`. -/
def routeGetX : ORoute := ⟨"/x", [], .http [("GET", 11)]⟩

/-- Declaration of `POST /x`. -/
def routePostX : ORoute := ⟨"/x", [], .http [("POST", 12)]⟩

/-- The component-set route map holding `GET /x` and `POST /x`. -/
def rmX : ORouteMap := (addRoutes id ormEmpty [routeGetX, routePostX]).1

/-- Declaration of `GET /a/(x:int)` with its parameter definition. -/
def routeAInt : ORoute := ⟨"/a/\x7bx:int\x7d", [⟨"x", "x:int"⟩], .http [("GET", 31)]⟩

/-- Declaration of `GET /a/(x:str)`: the same trie position as `routeAInt`
but a different parameter-definition sequence. -/
def routeAStr : ORoute := ⟨"/a/\x7bx:str\x7d", [⟨"x", "x:str"⟩], .http [("GET", 32)]⟩

/-- The component-set route map holding `GET /a/(id:str)`. -/
def rmArt : ORouteMap :=
  (addRoutes id ormEmpty [⟨"/a/\x7bid:str\x7d", [⟨"id", "id:str"⟩], .http [("GET", 21)]⟩]).1

/-- The component-set route map left behind after declaring `routeAInt` and
then the conflicting `routeAStr`: the second declaration fails the
parameter-equality check, leaving the map partially built. -/
def rmBad : ORouteMap := (addRoutes id ormEmpty [routeAInt, routeAStr]).1

/-!
Theorems.  Helper lemmas come first, then one theorem per claim, each with
its witness or counterexample where required.
-/

theorem nsep_eq_false {c : Char} : nsep c = false ↔ c = sep := by
  simp [nsep]

theorem nsep_eq_true {c : Char} : nsep c = true ↔ c ≠ sep := by
  simp [nsep]

theorem splitSepL_ne_nil : ∀ l : List Char, splitSepL l ≠ []
  | [] => by simp [splitSepL]
  | c :: t => by
    by_cases hc : c = sep
    · simp [splitSepL, hc]
    · simp only [splitSepL, if_neg hc]
      cases h : splitSepL t <;> simp

theorem dropWhile_head_false {p : Char → Bool} :
    ∀ {t : List Char} {d : Char} {r : List Char}, t.dropWhile p = d :: r → p d = false := by
  intro t
  induction t with
  | nil => intro d r h; simp [List.dropWhile] at h
  | cons a t ih =>
    intro d r h
    rw [List.dropWhile_cons] at h
    by_cases ha : p a = true
    · exact ih (by simpa [ha] using h)
    · simp only [ha, if_false] at h
      cases h
      simpa using ha

theorem splitSepL_structure (t : List Char) :
    splitSepL t = t.takeWhile nsep ::
      (match t.dropWhile nsep with
       | [] => []
       | _ :: r => splitSepL r) := by
  induction t with
  | nil => simp [splitSepL]
  | cons a t ih =>
    by_cases ha : a = sep
    · subst ha
      simp [splitSepL, List.takeWhile_cons, List.dropWhile_cons, nsep]
    · simp only [splitSepL, if_neg ha, List.takeWhile_cons, List.dropWhile_cons]
      simp only [nsep_eq_true.mpr ha, if_true]
      rw [ih]

theorem segsD_nil : segsD [] = [] := by simp [segsD]

theorem segsD_sep_cons (l : List Char) : segsD (sep :: l) = segsD l := by
  rw [segsD]
  simp

theorem segsL_eq_segsD : ∀ l : List Char, segsL l = segsD l
  | [] => by simp [segsL, segsD, splitSepL]
  | c :: t => by
    by_cases hc : c = sep
    · subst hc
      have ih := segsL_eq_segsD t
      simp only [segsL, splitSepL, if_pos rfl, List.filter_cons] at *
      simp only [segsD, if_pos rfl]
      simpa using ih
    · rw [segsL, splitSepL_structure (c :: t)]
      simp only [List.takeWhile_cons, List.dropWhile_cons]
      simp only [nsep_eq_true.mpr hc, if_true]
      rw [segsD]
      simp only [hc, if_false]
      rw [List.filter_cons]
      cases hd : t.dropWhile nsep with
      | nil =>
        simp [segsD]
      | cons d r =>
        have hdsep : d = sep := by
          have := dropWhile_head_false (p := nsep) hd
          exact nsep_eq_false.mp this
        have hr : r.length < (c :: t).length := by
          have hsub := (List.dropWhile_sublist (l := t) (p := nsep)).length_le
          rw [hd] at hsub
          simp only [List.length_cons] at *
          omega
        have ih := segsL_eq_segsD r
        subst hdsep
        rw [segsD_sep_cons, if_pos (by simp)]
        exact congrArg (List.cons (c :: t.takeWhile nsep)) ih
termination_by l => l.length
decreasing_by
  all_goals simp_wf
  all_goals (simp only [List.length_cons] at *; omega)

theorem segsD_append_sep : ∀ l1 l2 : List Char, segsD (l1 ++ sep :: l2) = segsD l1 ++ segsD l2
  | [], l2 => by simpa [segsD_nil] using segsD_sep_cons l2
  | c :: t, l2 => by
    by_cases hc : c = sep
    · subst hc
      rw [List.cons_append, segsD_sep_cons, segsD_sep_cons]
      exact segsD_append_sep t l2
    · rw [List.cons_append, segsD, segsD]
      simp only [hc, if_false]
      rw [List.takeWhile_append, List.dropWhile_append]
      cases hd : t.dropWhile nsep with
      | nil =>
        have htw : t.takeWhile nsep = t := by
          have := List.takeWhile_append_dropWhile (p := nsep) (l := t)
          rw [hd] at this
          simpa using this
        simp only [hd, htw, List.isEmpty_nil, if_true, if_pos rfl]
        rw [List.takeWhile_cons]
        simp only [nsep_eq_false.mpr rfl, Bool.false_eq_true, if_false]
        rw [List.dropWhile_cons]
        simp only [nsep_eq_false.mpr rfl, Bool.false_eq_true, if_false]
        simp [segsD_sep_cons, segsD_nil]
      | cons d r =>
        have hdsep : d = sep := nsep_eq_false.mp (dropWhile_head_false (p := nsep) hd)
        subst hdsep
        have hlen : ¬ (t.takeWhile nsep).length = t.length := by
          have := List.takeWhile_append_dropWhile (p := nsep) (l := t)
          have hl := congrArg List.length this
          rw [hd] at hl
          simp only [List.length_append, List.length_cons] at hl
          omega
        have hr : r.length < (c :: t).length := by
          have hsub := (List.dropWhile_sublist (l := t) (p := nsep)).length_le
          rw [hd] at hsub
          simp only [List.length_cons] at *
          omega
        simp only [List.isEmpty_cons, Bool.false_eq_true, if_false, if_neg hlen,
          List.cons_append, segsD_sep_cons]
        rw [segsD_append_sep r l2]
termination_by l1 _ => l1.length
decreasing_by
  all_goals simp_wf
  all_goals (simp only [List.length_cons] at *; omega)

theorem segsD_all_good : ∀ l : List Char,
    (segsD l).all (fun s => !s.isEmpty && !s.contains sep) = true
  | [] => by simp [segsD_nil]
  | c :: t => by
    by_cases hc : c = sep
    · subst hc
      rw [segsD_sep_cons]
      exact segsD_all_good t
    · rw [segsD]
      simp only [hc, if_false]
      have hr : (t.dropWhile nsep).length ≤ t.length :=
        (List.dropWhile_sublist _).length_le
      rw [List.all_cons]
      have htail := segsD_all_good (t.dropWhile nsep)
      rw [htail]
      simp only [Bool.and_true]
      simp only [List.isEmpty_cons, Bool.not_false, Bool.true_and]
      rw [Bool.not_eq_true', List.contains_eq_any_beq]
      simp only [List.any_cons, Bool.or_eq_false_iff]
      constructor
      · simpa using fun h => hc h.symm
      · rw [List.any_eq_false]
        intro x hx
        have hmem := List.mem_takeWhile_imp hx
        rw [nsep_eq_true] at hmem
        simpa using fun h => hmem h.symm
termination_by l => l.length
decreasing_by
  all_goals simp_wf
  all_goals omega

theorem wsep_false : Char.isWhitespace sep = false := by decide

theorem dw_idem (p : Char → Bool) (l : List Char) :
    (l.dropWhile p).dropWhile p = l.dropWhile p := by
  cases h : l.dropWhile p with
  | nil => simp
  | cons d r =>
    have hd := dropWhile_head_false (p := p) h
    rw [List.dropWhile_cons, hd]
    simp

theorem trimRight_pre (l : List Char) : trimRightL l <+: l := by
  rw [← List.reverse_suffix]
  simpa [trimRightL] using List.dropWhile_suffix (l := l.reverse) Char.isWhitespace

theorem pre_head? {b a : List Char} (h : b <+: a) (hb : b ≠ []) : a.head? = b.head? := by
  obtain ⟨t, rfl⟩ := h
  rw [List.head?_append]
  cases b with
  | nil => exact absurd rfl hb
  | cons x xs => simp

theorem trimLeft_of_head {l : List Char} {x : Char} (hh : l.head? = some x)
    (hx : Char.isWhitespace x = false) : trimLeftL l = l := by
  cases l with
  | nil => simp at hh
  | cons a t =>
    have hax : a = x := by simpa using hh
    subst hax
    rw [trimLeftL, List.dropWhile_cons, hx]
    simp

theorem trimLeft_trimRight_trimLeft (l : List Char) :
    trimLeftL (trimRightL (trimLeftL l)) = trimRightL (trimLeftL l) := by
  cases hb : trimRightL (trimLeftL l) with
  | nil => simp [trimLeftL]
  | cons d r =>
    have hpre : trimRightL (trimLeftL l) <+: trimLeftL l := trimRight_pre _
    have hh : (trimLeftL l).head? = some d := by
      rw [pre_head? hpre (by simp [hb]), hb]
      rfl
    have hd : Char.isWhitespace d = false := by
      cases hA : trimLeftL l with
      | nil => rw [hA] at hh; simp at hh
      | cons x xs =>
        have hxd : x = d := by rw [hA] at hh; simpa using hh
        subst hxd
        exact dropWhile_head_false (p := Char.isWhitespace) hA
    exact trimLeft_of_head rfl hd

theorem trimRight_idem (l : List Char) : trimRightL (trimRightL l) = trimRightL l := by
  rw [trimRightL, trimRightL, List.reverse_reverse, dw_idem]

theorem trim_idem (l : List Char) : trimL (trimL l) = trimL l := by
  rw [trimL, trimL, trimLeft_trimRight_trimLeft l, trimRight_idem]

theorem nds_tail {c : Char} {X : List Char} (h : noDoubleSepL (c :: X) = true) :
    noDoubleSepL X = true := by
  cases X with
  | nil => rfl
  | cons b t =>
    rw [noDoubleSepL] at h
    exact (Bool.and_eq_true_iff.mp h).2

theorem nds_cons_of_ne {c : Char} {X : List Char} (hc : c ≠ sep)
    (h : noDoubleSepL X = true) : noDoubleSepL (c :: X) = true := by
  cases X with
  | nil => rfl
  | cons b t =>
    rw [noDoubleSepL, h]
    simp [hc]

theorem nds_cons_sep {X : List Char} (hhead : ∀ x, X.head? = some x → x ≠ sep)
    (h : noDoubleSepL X = true) : noDoubleSepL (sep :: X) = true := by
  cases X with
  | nil => rfl
  | cons b t =>
    rw [noDoubleSepL, h]
    have hb : b ≠ sep := hhead b rfl
    simp [hb]

theorem collapseAux_facts : ∀ t : List Char,
    noDoubleSepL (collapseAux false t) = true ∧
    noDoubleSepL (collapseAux true t) = true ∧
    (∀ x, (collapseAux true t).head? = some x → x ≠ sep) := by
  intro t
  induction t with
  | nil => exact ⟨rfl, rfl, by intro x hx; simp [collapseAux] at hx⟩
  | cons c t ih =>
    obtain ⟨ih1, ih2, ih3⟩ := ih
    by_cases hc : c = sep
    · subst hc
      refine ⟨?_, ?_, ?_⟩
      · rw [collapseAux]
        simp only [if_pos rfl]
        exact nds_cons_sep ih3 ih2
      · rw [collapseAux]
        simp only [if_pos rfl]
        exact ih2
      · intro x hx
        rw [collapseAux] at hx
        simp only [if_pos rfl] at hx
        exact ih3 x hx
    · refine ⟨?_, ?_, ?_⟩
      · rw [collapseAux]
        simp only [hc, if_false]
        exact nds_cons_of_ne hc ih1
      · rw [collapseAux]
        simp only [hc, if_false]
        exact nds_cons_of_ne hc ih1
      · intro x hx
        rw [collapseAux] at hx
        simp only [hc, if_false] at hx
        simp only [List.head?_cons, Option.some_inj] at hx
        subst hx
        exact hc

theorem nds_head_sep {X : List Char} {x : Char} (h : noDoubleSepL (sep :: X) = true)
    (hx : X.head? = some x) : x ≠ sep := by
  cases X with
  | nil => simp at hx
  | cons b t =>
    have hb : b = x := by simpa using hx
    subst hb
    rw [noDoubleSepL] at h
    have h1 := (Bool.and_eq_true_iff.mp h).1
    simp only [Bool.not_eq_true', Bool.and_eq_false_iff] at h1
    intro hbs
    rcases h1 with h1 | h1 <;> simp [hbs] at h1

theorem collapseAux_of_nds : ∀ t : List Char, noDoubleSepL t = true →
    collapseAux false t = t ∧
    ((∀ x, t.head? = some x → x ≠ sep) → collapseAux true t = t) := by
  intro t
  induction t with
  | nil => exact fun _ => ⟨rfl, fun _ => rfl⟩
  | cons c t ih =>
    intro hnds
    have hihnds := nds_tail hnds
    obtain ⟨ih1, ih2⟩ := ih hihnds
    by_cases hc : c = sep
    · subst hc
      constructor
      · simp only [collapseAux, if_pos rfl, Bool.false_eq_true, if_false, if_true]
        exact congrArg (List.cons sep) (ih2 (fun x hx => nds_head_sep hnds hx))
      · intro hhead
        exact absurd rfl (hhead sep rfl)
    · constructor
      · rw [collapseAux]
        simp only [hc, if_false]
        rw [ih1]
      · intro _
        rw [collapseAux]
        simp only [hc, if_false]
        rw [ih1]

theorem nds_ends_dropLast : ∀ l : List Char, noDoubleSepL l = true → endsSepL l = true →
    l.dropLast = [] ∨ endsSepL l.dropLast = false
  | [] => by intro _ h; simp [endsSepL] at h
  | [a] => by intro _ _; left; simp
  | a :: b :: t => by
    intro hnds hend
    right
    cases t with
    | nil =>
      have hb : b = sep := by simpa [endsSepL] using hend
      subst hb
      have ha : a ≠ sep := by
        rw [noDoubleSepL] at hnds
        have h1 := (Bool.and_eq_true_iff.mp hnds).1
        simp only [Bool.not_eq_true', Bool.and_eq_false_iff] at h1
        intro has
        rcases h1 with h1 | h1 <;> simp [has] at h1
      simp [endsSepL, ha]
    | cons cc tt =>
      have hnds' : noDoubleSepL (b :: cc :: tt) = true := nds_tail hnds
      have hend' : endsSepL (b :: cc :: tt) = true := by
        rw [endsSepL] at hend ⊢
        rwa [List.getLast?_cons_cons] at hend
      have ih := nds_ends_dropLast (b :: cc :: tt) hnds' hend'
      have hdl : (b :: cc :: tt).dropLast = b :: (cc :: tt).dropLast := by
        simp [List.dropLast]
      rcases ih with ih | ih
      · rw [hdl] at ih
        exact absurd ih (by simp)
      · have : (a :: b :: cc :: tt).dropLast = a :: (b :: cc :: tt).dropLast := by
          simp [List.dropLast]
        rw [this, endsSepL]
        rw [hdl]
        rw [List.getLast?_cons_cons]
        rw [endsSepL, hdl] at ih
        exact ih

theorem collapseL_ne_nil {t : List Char} (h : t ≠ []) : collapseL t ≠ [] := by
  cases t with
  | nil => exact absurd rfl h
  | cons c r =>
    rw [collapseL, collapseAux]
    by_cases hc : c = sep <;> simp [hc]

/-- C4 counterexample: path normalization is not idempotent on every input;
stripping the trailing separator of `"a /"` exposes trailing whitespace, and
the second normalization removes it. -/
theorem c4_idem_counterexample :
    ¬ (normalizePath (normalizePath "a /") = normalizePath "a /") := by decide

theorem normalizeL_starts (l : List Char) : startsSepL (normalizeL l) = true := by
  rw [normalizeL]
  by_cases h : trimL l = []
  · simp [h, startsSepL]
  · rw [if_neg h]
    by_cases hs : startsSepL (if collapseL (trimL l) ≠ [sep] ∧ endsSepL (collapseL (trimL l))
        then (collapseL (trimL l)).dropLast else collapseL (trimL l)) = true
    · rw [if_pos hs]
      exact hs
    · rw [if_neg hs]
      simp [startsSepL]

theorem nds_dropLast : ∀ l : List Char, noDoubleSepL l = true →
    noDoubleSepL l.dropLast = true
  | [] => by intro _; rfl
  | [a] => by intro _; rfl
  | a :: b :: t => by
    intro hnds
    have hdl : (a :: b :: t).dropLast = a :: (b :: t).dropLast := by
      simp [List.dropLast]
    rw [hdl]
    have ih := nds_dropLast (b :: t) (nds_tail hnds)
    by_cases ha : a = sep
    · subst ha
      cases t with
      | nil => rfl
      | cons cc tt =>
        have hb : b ≠ sep := by
          rw [noDoubleSepL] at hnds
          have h1 := (Bool.and_eq_true_iff.mp hnds).1
          simp only [Bool.not_eq_true', Bool.and_eq_false_iff] at h1
          intro hbs
          rcases h1 with h1 | h1 <;> simp [hbs] at h1
        have hdl2 : (b :: cc :: tt).dropLast = b :: (cc :: tt).dropLast := by
          simp [List.dropLast]
        refine nds_cons_sep ?_ ih
        intro x hx
        rw [hdl2] at hx
        have hbx : b = x := by simpa using hx
        subst hbx
        exact hb
    · exact nds_cons_of_ne ha ih

theorem nds_normalizeL (l : List Char) : noDoubleSepL (normalizeL l) = true := by
  rw [normalizeL]
  by_cases h : trimL l = []
  · simp only [h, if_pos]
    rfl
  · rw [if_neg h]
    have hcn := (collapseAux_facts (trimL l)).1
    have hnds : noDoubleSepL (if collapseL (trimL l) ≠ [sep] ∧ endsSepL (collapseL (trimL l))
        then (collapseL (trimL l)).dropLast else collapseL (trimL l)) = true := by
      by_cases hcond : collapseL (trimL l) ≠ [sep] ∧ endsSepL (collapseL (trimL l)) = true
      · rw [if_pos hcond]
        exact nds_dropLast _ hcn
      · rw [if_neg hcond]
        exact hcn
    by_cases hs : startsSepL (if collapseL (trimL l) ≠ [sep] ∧ endsSepL (collapseL (trimL l))
        then (collapseL (trimL l)).dropLast else collapseL (trimL l)) = true
    · rw [if_pos hs]
      exact hnds
    · rw [if_neg hs]
      refine nds_cons_sep ?_ hnds
      intro x hx hxs
      subst hxs
      exact hs (by rw [startsSepL, hx]; decide)

theorem ends_normalizeL (l : List Char) :
    normalizeL l = [sep] ∨ endsSepL (normalizeL l) = false := by
  simp only [normalizeL]
  by_cases h : trimL l = []
  · left
    simp [h]
  · rw [if_neg h]
    have hnds : noDoubleSepL (collapseL (trimL l)) = true := (collapseAux_facts (trimL l)).1
    have hcne : collapseL (trimL l) ≠ [] := collapseL_ne_nil h
    by_cases hcond : ¬collapseL (trimL l) = [sep] ∧ endsSepL (collapseL (trimL l)) = true
    · rw [if_pos hcond]
      have hdl := nds_ends_dropLast (collapseL (trimL l)) hnds hcond.2
      have hne : (collapseL (trimL l)).dropLast ≠ [] := by
        cases cc : collapseL (trimL l) with
        | nil => exact absurd cc hcne
        | cons y ys =>
          cases ys with
          | nil =>
            exfalso
            have hy : y = sep := by
              have h2 := hcond.2
              rw [cc] at h2
              simpa [endsSepL] using h2
            exact hcond.1 (by rw [cc, hy])
          | cons z zs => simp [cc, List.dropLast]
      rcases hdl with hdl | hdl
      · exact absurd hdl hne
      · by_cases hs : startsSepL (collapseL (trimL l)).dropLast = true
        · right
          rw [if_pos hs]
          exact hdl
        · right
          rw [if_neg hs]
          rw [endsSepL] at hdl ⊢
          cases sd : (collapseL (trimL l)).dropLast with
          | nil => exact absurd sd hne
          | cons y ys =>
            rw [List.getLast?_cons_cons]
            rw [sd] at hdl
            exact hdl
    · rw [if_neg hcond]
      by_cases hceq : collapseL (trimL l) = [sep]
      · left
        rw [hceq]
        rw [if_pos (by rw [startsSepL]; decide)]
      · have hend : endsSepL (collapseL (trimL l)) = false := by
          rcases not_and_or.mp hcond with h1 | h1
          · exact absurd (not_not.mp h1) hceq
          · simpa using h1
        by_cases hs : startsSepL (collapseL (trimL l)) = true
        · right
          rw [if_pos hs]
          exact hend
        · right
          rw [if_neg hs]
          rw [endsSepL] at hend ⊢
          cases cc : collapseL (trimL l) with
          | nil => exact absurd cc hcne
          | cons y ys =>
            rw [List.getLast?_cons_cons]
            rw [cc] at hend
            exact hend

theorem normalizeL_canonical_id : ∀ l : List Char, CanonicalPath l → normalizeL l = l := by
  intro l hcan
  obtain ⟨htrim, hstart, hnds, hends⟩ := hcan
  have hne : l ≠ [] := by
    intro h
    subst h
    simp [startsSepL] at hstart
  simp only [normalizeL]
  rw [htrim, if_neg hne, collapseL, (collapseAux_of_nds l hnds).1]
  have hcondF : ¬(¬l = [sep] ∧ endsSepL l = true) := by
    rcases hends with h1 | h1
    · intro hcon
      exact hcon.1 h1
    · intro hcon
      rw [h1] at hcon
      exact absurd hcon.2 (by simp)
  rw [if_neg hcondF, if_pos hstart]

theorem normalizeL_trim (l : List Char) : normalizeL (trimL l) = normalizeL l := by
  rw [normalizeL, normalizeL, trim_idem]

theorem normalizeL_empty {l : List Char} (h : trimL l = []) : normalizeL l = [sep] := by
  rw [normalizeL]
  simp [h]

theorem normalizeL_idem_of_trimRight (l : List Char)
    (h : trimRightL (normalizeL l) = normalizeL l) :
    normalizeL (normalizeL l) = normalizeL l := by
  apply normalizeL_canonical_id
  have hstart := normalizeL_starts l
  have hhead : (normalizeL l).head? = some sep := by
    rw [startsSepL] at hstart
    exact of_decide_eq_true hstart
  refine ⟨?_, hstart, nds_normalizeL l, ends_normalizeL l⟩
  rw [trimL, trimLeft_of_head hhead wsep_false, h]

/-- C4 amended: normalization trims before anything else, maps
whitespace-only paths to the root, emits a path with a leading separator, no
separator runs, and no trailing separator except at the root; it is the
identity on canonical paths and hence idempotent whenever its result carries
no trailing whitespace (in particular on all whitespace-free paths); and
`normalize("//a//b/") = "/a/b"`.  Unrestricted idempotence fails: stripping
the trailing separator may expose trailing whitespace, which only the next
normalization trims. -/
theorem c4_normalize_amended :
    (∀ l : List Char, normalizeL (trimL l) = normalizeL l) ∧
    (∀ l : List Char, trimL l = [] → normalizeL l = [sep]) ∧
    (∀ l : List Char, startsSepL (normalizeL l) = true) ∧
    (∀ l : List Char, noDoubleSepL (normalizeL l) = true) ∧
    (∀ l : List Char, normalizeL l = [sep] ∨ endsSepL (normalizeL l) = false) ∧
    (∀ l : List Char, CanonicalPath l → normalizeL l = l) ∧
    (∀ l : List Char, trimRightL (normalizeL l) = normalizeL l →
      normalizeL (normalizeL l) = normalizeL l) ∧
    normalizePath "//a//b/" = "/a/b" := by
  exact ⟨normalizeL_trim, fun l h => normalizeL_empty h, normalizeL_starts, nds_normalizeL,
    ends_normalizeL, normalizeL_canonical_id, normalizeL_idem_of_trimRight, by decide⟩

/-- C4 witness: the amended theorem applied at concrete inputs, discharging
its hypotheses there. -/
theorem c4_normalize_amended_witness :
    normalizeL "/a/b".data = "/a/b".data ∧
    normalizeL (normalizeL "//x".data) = normalizeL "//x".data := by
  constructor
  · exact c4_normalize_amended.2.2.2.2.2.1 "/a/b".data
      ⟨by decide, by decide, by decide, by decide⟩
  · exact c4_normalize_amended.2.2.2.2.2.2.1 "//x".data (by decide)

/-- C9: the segment splitter `get_base_components` always emits the root
separator first, followed by exactly the maximal non-separator runs of the
input in order (each non-empty and separator-free); dropping a repeated
separator anywhere, or a trailing separator, leaves the segment sequence
unchanged. -/
theorem c9_get_base_components :
    (∀ p : String,
      getBaseComponents p = "/" :: (segsD p.data).map (fun l => (⟨l⟩ : String))) ∧
    (∀ l1 l2 : List Char, segsD (l1 ++ sep :: sep :: l2) = segsD (l1 ++ sep :: l2)) ∧
    (∀ l : List Char, segsD (l ++ [sep]) = segsD l) ∧
    (∀ l : List Char, (segsD l).all (fun s => !s.isEmpty && !s.contains sep) = true) := by
  refine ⟨?_, ?_, ?_, segsD_all_good⟩
  · intro p
    rw [getBaseComponents, segsL_eq_segsD]
  · intro l1 l2
    rw [segsD_append_sep, segsD_append_sep, segsD_sep_cons]
  · intro l
    have h := segsD_append_sep l []
    simpa [segsD_nil] using h

theorem lookupRel_total : ∀ (comps : List String) (n : Node) (acc : List String),
    ∃ out, LookupRel n comps acc out
  | [], n, acc => ⟨.finished n acc, .done⟩
  | c :: rest, n, acc => by
    cases hch : alookup n.children c with
    | some child =>
      obtain ⟨out, hout⟩ := lookupRel_total rest child acc
      exact ⟨out, .literal hch hout⟩
    | none =>
      cases hph : n.placeholderChild with
      | some child =>
        obtain ⟨out, hout⟩ := lookupRel_total rest child (acc ++ [c])
        exact ⟨out, .placeholder hch hph hout⟩
      | none =>
        cases hsp : n.handlerGroup.bind HandlerGroup.staticPath? with
        | some sp => exact ⟨_, .staticStop hch hph hsp⟩
        | none => exact ⟨_, .failure hch hph hsp⟩

theorem lookupRel_sound {n : Node} {comps acc : List String} {out : LookupOut}
    (path : String) (h : LookupRel n comps acc out) :
    walkLoop n comps path acc = interpOut path out := by
  induction h with
  | done => rfl
  | literal hch hrel ih =>
    simp only [walkLoop, hch]
    exact ih
  | placeholder hch hph hrel ih =>
    simp only [walkLoop, hch, hph]
    exact ih
  | staticStop hch hph hsp =>
    simp only [walkLoop, hch, hph, hsp, interpOut]
  | failure hch hph hsp =>
    simp only [walkLoop, hch, hph, hsp, interpOut]

theorem lookupRel_unique : ∀ {n : Node} {comps acc : List String} {o1 o2 : LookupOut},
    LookupRel n comps acc o1 → LookupRel n comps acc o2 → o1 = o2 := by
  intro n comps acc o1 o2 h1 h2
  induction h1 generalizing o2 with
  | done =>
    cases h2
    rfl
  | literal hch hrel ih =>
    cases h2 with
    | literal hch2 hrel2 =>
      have he := hch.symm.trans hch2
      injection he with he
      subst he
      exact ih hrel2
    | placeholder hch2 _ _ => rw [hch] at hch2; exact Option.noConfusion hch2
    | staticStop hch2 _ _ => rw [hch] at hch2; exact Option.noConfusion hch2
    | failure hch2 _ _ => rw [hch] at hch2; exact Option.noConfusion hch2
  | placeholder hch hph hrel ih =>
    cases h2 with
    | literal hch2 _ => rw [hch] at hch2; exact Option.noConfusion hch2
    | placeholder hch2 hph2 hrel2 =>
      have he := hph.symm.trans hph2
      injection he with he
      subst he
      exact ih hrel2
    | staticStop _ hph2 _ => rw [hph] at hph2; exact Option.noConfusion hph2
    | failure _ hph2 _ => rw [hph] at hph2; exact Option.noConfusion hph2
  | staticStop hch hph hsp =>
    cases h2 with
    | literal hch2 _ => rw [hch] at hch2; exact Option.noConfusion hch2
    | placeholder _ hph2 _ => rw [hph] at hph2; exact Option.noConfusion hph2
    | staticStop _ _ hsp2 =>
      have he := hsp.symm.trans hsp2
      injection he with he
      subst he
      rfl
    | failure _ _ hsp2 => rw [hsp] at hsp2; exact Option.noConfusion hsp2
  | failure hch hph hsp =>
    cases h2 with
    | literal hch2 _ => rw [hch] at hch2; exact Option.noConfusion hch2
    | placeholder _ hph2 _ => rw [hph] at hph2; exact Option.noConfusion hph2
    | staticStop _ _ hsp2 => rw [hsp] at hsp2; exact Option.noConfusion hsp2
    | failure _ _ _ => rfl

/-- C1: the trie walk of `find_handler_group` is characterised exactly by the
declarative tie-break policy `LookupRel`: a policy outcome always exists, it
is unique, the walk computes precisely its interpretation (literal child
first, then placeholder with the segment recorded positionally, then the
static group, otherwise not-found), and a not-found policy outcome on a
non-plain path makes the whole lookup fail. -/
theorem c1_lookup_policy :
    (∀ (n : Node) (comps acc : List String), ∃ out, LookupRel n comps acc out) ∧
    (∀ (n : Node) (comps acc : List String) (out : LookupOut) (path : String),
      LookupRel n comps acc out → walkLoop n comps path acc = interpOut path out) ∧
    (∀ (n : Node) (comps acc : List String) (o1 o2 : LookupOut),
      LookupRel n comps acc o1 → LookupRel n comps acc o2 → o1 = o2) ∧
    (∀ (rm : RouteMap) (fullPath : String),
      alookup rm.plainRoutes (normalizePath fullPath) = none →
      LookupRel rm.root (getBaseComponents (normalizePath fullPath)) [] .failNotFound →
      findHandlerGroup rm fullPath = none) := by
  refine ⟨fun n comps acc => lookupRel_total comps n acc,
    fun n comps acc out path h => lookupRel_sound path h,
    fun n comps acc o1 o2 h1 h2 => lookupRel_unique h1 h2,
    ?_⟩
  intro rm fullPath hplain hrel
  have hwalk := lookupRel_sound (normalizePath fullPath) hrel
  simp only [findHandlerGroup, hplain, hwalk, interpOut]

/-- C1 witness: the characterisation applied on a concrete node and segment
list, with the policy derivation built from the constructors. -/
theorem c1_lookup_policy_witness :
    walkLoop emptyNode ["a"] "/a" [] = interpOut "/a" .failNotFound :=
  c1_lookup_policy.2.1 emptyNode ["a"] [] .failNotFound "/a" (.failure rfl rfl rfl)

theorem startsWithL_append (pat rest : List Char) : startsWithL pat (pat ++ rest) = true := by
  induction pat with
  | nil => rfl
  | cons p ps ih =>
    rw [List.cons_append, startsWithL, ih]
    simp

theorem replaceAllFuel_congr (pat rep : List Char) :
    ∀ (n f g : Nat) (l : List Char), l.length ≤ n → l.length ≤ f → l.length ≤ g →
      replaceAllFuel pat rep f l = replaceAllFuel pat rep g l := by
  intro n
  induction n with
  | zero =>
    intro f g l hn _ _
    have : l = [] := List.eq_nil_of_length_eq_zero (Nat.le_zero.mp hn)
    subst this
    cases f <;> cases g <;> rfl
  | succ n ih =>
    intro f g l hn hf hg
    cases l with
    | nil => cases f <;> cases g <;> rfl
    | cons c rest =>
      simp only [List.length_cons] at hn hf hg
      cases f with
      | zero => omega
      | succ f' =>
        cases g with
        | zero => omega
        | succ g' =>
          rw [replaceAllFuel, replaceAllFuel]
          by_cases hcond : pat ≠ [] ∧ startsWithL pat (c :: rest) = true
          · rw [if_pos hcond, if_pos hcond]
            have hp : 0 < pat.length := List.length_pos.mpr hcond.1
            have hdlen : ((c :: rest).drop pat.length).length ≤ rest.length := by
              rw [List.length_drop]
              simp only [List.length_cons]
              omega
            rw [ih f' g' _ (by omega) (by omega) (by omega)]
          · rw [if_neg hcond, if_neg hcond]
            rw [ih f' g' rest (by omega) (by omega) (by omega)]

theorem replaceAllFuel_irrel (pat rep : List Char) (f : Nat) (l : List Char)
    (h : l.length ≤ f) : replaceAllFuel pat rep f l = replaceAllL pat rep l :=
  replaceAllFuel_congr pat rep l.length f l.length l (le_refl _) h (le_refl _)

theorem replaceAllL_cons (pat rep : List Char) (c : Char) (rest : List Char) :
    replaceAllL pat rep (c :: rest) =
      if pat ≠ [] ∧ startsWithL pat (c :: rest) = true then
        rep ++ replaceAllL pat rep ((c :: rest).drop pat.length)
      else
        c :: replaceAllL pat rep rest := by
  rw [replaceAllL]
  simp only [List.length_cons]
  rw [replaceAllFuel]
  by_cases hcond : pat ≠ [] ∧ startsWithL pat (c :: rest) = true
  · rw [if_pos hcond, if_pos hcond]
    have hp : 0 < pat.length := List.length_pos.mpr hcond.1
    have hdlen : ((c :: rest).drop pat.length).length ≤ rest.length := by
      rw [List.length_drop]
      simp only [List.length_cons]
      omega
    rw [replaceAllFuel_irrel pat rep rest.length _ hdlen]
  · rw [if_neg hcond, if_neg hcond]
    rw [replaceAllFuel_irrel pat rep rest.length rest (le_refl _)]

theorem replaceAllL_of_not_occurs (pat : List Char) :
    ∀ l : List Char, occursL pat l = false → replaceAllL pat [] l = l := by
  intro l
  induction l with
  | nil => intro _; rfl
  | cons c rest ih =>
    intro hocc
    rw [occursL, Bool.or_eq_false_iff] at hocc
    rw [replaceAllL_cons, if_neg (by simp [hocc.1]), ih hocc.2]

theorem replaceAllL_strip {pat : List Char} (hne : pat ≠ []) (rest : List Char) :
    replaceAllL pat [] (pat ++ rest) = replaceAllL pat [] rest := by
  cases hp : pat with
  | nil => exact absurd hp hne
  | cons p ps =>
    rw [← hp]
    have hcons : pat ++ rest = p :: (ps ++ rest) := by rw [hp]; rfl
    rw [hcons, replaceAllL_cons,
      if_pos ⟨hne, by rw [← hcons]; exact startsWithL_append pat rest⟩]
    rw [← hcons, List.drop_left]
    rfl

/-- C2 counterexample: the static rewrite is not a remove-the-leading-
occurrence-once operation; looking up `/assets/assets/app.js` under a static
`/assets` registration removes both occurrences (Rust `str::replace`) and
returns `/app.js`, while the claim predicts `/assets/app.js`. -/
theorem c2_strip_once_counterexample :
    findHandlerGroup rmAssets "/assets/assets/app.js" =
      some ⟨hgAssets, [], some "/app.js"⟩ ∧
    stripLeadOnce "/assets" (normalizePath "/assets/assets/app.js") = "/assets/app.js" ∧
    ("/app.js" : String) ≠ "/assets/app.js" := by
  refine ⟨by decide, by decide, by decide⟩

/-- C2 amended: when the walk stops at a node whose group records a static
path other than the root, the returned path is the input path with every
occurrence of the static path replaced by the empty string (Rust
`str::replace` semantics), and the path is unchanged when the static path is
the root; when the static path occurs exactly once, as a leading prefix, this
coincides with removing the prefix once, and `/assets/app.js` under static
`/assets` rewrites to `/app.js`. -/
theorem c2_static_rewrite_amended :
    (∀ (n : Node) (c : String) (cs : List String) (path : String) (params : List String)
      (sp : String),
      alookup n.children c = none → n.placeholderChild = none →
      n.handlerGroup.bind HandlerGroup.staticPath? = some sp →
      walkLoop n (c :: cs) path params =
        some (n, if sp ≠ "/" then replaceAll path sp "" else path, params)) ∧
    (∀ path sp rest : String, sp.data ≠ [] → path.data = sp.data ++ rest.data →
      occursL sp.data rest.data = false → replaceAll path sp "" = rest) ∧
    findHandlerGroup rmAssets "/assets/app.js" = some ⟨hgAssets, [], some "/app.js"⟩ := by
  refine ⟨?_, ?_, by decide⟩
  · intro n c cs path params sp hch hph hsp
    simp only [walkLoop, hch, hph, hsp]
  · intro path sp rest hne hsplit hocc
    rw [replaceAll]
    show String.mk (replaceAllL sp.data [] path.data) = rest
    rw [hsplit, replaceAllL_strip hne, replaceAllL_of_not_occurs sp.data rest.data hocc]

/-- C2 witness: the amended theorem applied at a concrete static node and at
the concrete prefix-stripping instance of the example. -/
theorem c2_static_rewrite_amended_witness :
    walkLoop (Node.mk [] none (some hgAssets)) ["x"] "/assets/x" [] =
      some (Node.mk [] none (some hgAssets),
        if ("/assets" : String) ≠ "/" then replaceAll "/assets/x" "/assets" ""
        else "/assets/x", []) ∧
    replaceAll "/assets/app.js" "/assets" "" = "/app.js" :=
  ⟨c2_static_rewrite_amended.1 (Node.mk [] none (some hgAssets)) "x" [] "/assets/x" []
      "/assets" rfl rfl rfl,
    c2_static_rewrite_amended.2.1 "/assets/app.js" "/assets" "/app.js"
      (by decide) (by decide) (by decide)⟩

theorem lbrace_ne_rbrace : lbrace ≠ rbrace := by decide

/-- C3: during insertion of a path-shaped route, a segment descends into the
single placeholder child exactly when it is an opening delimiter, a middle
text that is one of the declared parameter full-tokens, and a closing
delimiter; every other segment descends into the literal children entry for
the exact segment text; both branches create an empty node when the child is
absent; and path-shaped routes (non-empty parameter definitions or static)
are the ones that descend the trie at all. -/
theorem c3_insert_placeholder :
    (∀ (ps : List OParam) (c : String),
      isPlaceholderSeg (paramSetOf ps) c = true ↔
        ∃ mid : List Char, c.data = lbrace :: (mid ++ [rbrace]) ∧
          (⟨mid⟩ : String) ∈ ps.map OParam.full) ∧
    (∀ (ps : List OParam) (hg : HandlerGroup) (n : Node) (c : String) (rest : List String),
      isPlaceholderSeg (paramSetOf ps) c = true →
      insertWalk (paramSetOf ps) hg n (c :: rest) =
        (insertWalk (paramSetOf ps) hg (n.placeholderChild.getD emptyNode) rest).map
          (fun ch => Node.mk n.children (some ch) n.handlerGroup)) ∧
    (∀ (ps : List OParam) (hg : HandlerGroup) (n : Node) (c : String) (rest : List String),
      isPlaceholderSeg (paramSetOf ps) c = false →
      insertWalk (paramSetOf ps) hg n (c :: rest) =
        (insertWalk (paramSetOf ps) hg ((alookup n.children c).getD emptyNode) rest).map
          (fun ch => Node.mk (aupdate n.children c ch) n.placeholderChild n.handlerGroup)) ∧
    (∀ (rm : RouteMap) (path : String) (ps : List OParam) (st : Bool) (hg : HandlerGroup),
      (!ps.isEmpty || st) = true →
      findInsertHandlerGroup rm path ps st hg =
        (insertWalk (paramSetOf ps) hg rm.root (getBaseComponents path)).map
          (fun r => { rm with root := r })) := by
  refine ⟨?_, ?_, ?_, ?_⟩
  · intro ps c
    rw [isPlaceholderSeg]
    simp only [Bool.and_eq_true, decide_eq_true_iff]
    constructor
    · rintro ⟨⟨hhead, hlast⟩, hmem⟩
      cases hc : c.data with
      | nil => rw [hc] at hhead; simp at hhead
      | cons x t =>
        have hx : x = lbrace := by rw [hc] at hhead; simpa using hhead
        subst hx
        cases ht : t with
        | nil =>
          exfalso
          rw [hc, ht] at hlast
          simp only [List.getLast?_cons, List.getLast?_nil] at hlast
          exact lbrace_ne_rbrace (by simpa using hlast)
        | cons y ys =>
          refine ⟨(y :: ys).dropLast, ?_, ?_⟩
          · rw [← ht]
            have htne : t ≠ [] := by rw [ht]; simp
            have hgl : t.getLast htne = rbrace := by
              rw [hc] at hlast
              have h2 : t.getLast? = some rbrace := by
                rw [List.getLast?_cons] at hlast
                cases hgl2 : t.getLast? with
                | none =>
                  exfalso
                  rw [hgl2] at hlast
                  simp only [Option.getD_none, Option.some_inj] at hlast
                  exact lbrace_ne_rbrace hlast
                | some z =>
                  rw [hgl2] at hlast
                  simpa using hlast
              rwa [List.getLast?_eq_getLast t htne, Option.some_inj] at h2
            rw [← hgl]
            rw [List.dropLast_append_getLast htne]
          · have hinner : (c.data.drop 1).dropLast = (y :: ys).dropLast := by
              rw [hc, ht]
              rfl
            rw [hinner] at hmem
            rw [List.contains_eq_any_beq] at hmem
            simp only [List.any_eq_true, beq_iff_eq] at hmem
            obtain ⟨a, ha, hae⟩ := hmem
            rw [paramSetOf] at ha
            rw [hae]
            exact ha
    · rintro ⟨mid, hdecomp, hmem⟩
      refine ⟨⟨?_, ?_⟩, ?_⟩
      · rw [hdecomp]
        rfl
      · rw [hdecomp]
        have : lbrace :: (mid ++ [rbrace]) = (lbrace :: mid) ++ [rbrace] := by rfl
        rw [this, List.getLast?_concat]
      · have hinner : (c.data.drop 1).dropLast = mid := by
          rw [hdecomp]
          simp only [List.drop_succ_cons, List.drop_zero]
          exact List.dropLast_concat ..
        rw [hinner, List.contains_eq_any_beq]
        simp only [List.any_eq_true, beq_iff_eq]
        exact ⟨_, hmem, rfl⟩
  · intro ps hg n c rest h
    rw [insertWalk, if_pos h]
  · intro ps hg n c rest h
    rw [insertWalk, if_neg (by rw [h]; simp)]
  · intro rm path ps st hg h
    rw [findInsertHandlerGroup, if_pos h]

/-- C3 witness: both branches applied at concrete segments, with the
insertion evaluated. -/
theorem c3_insert_placeholder_witness :
    insertWalk (paramSetOf [⟨"id", "id:str"⟩]) (.catchall [] 5) emptyNode ["\x7bid:str\x7d"] =
      (insertWalk (paramSetOf [⟨"id", "id:str"⟩]) (.catchall [] 5)
        (emptyNode.placeholderChild.getD emptyNode) []).map
          (fun ch => Node.mk emptyNode.children (some ch) emptyNode.handlerGroup) ∧
    insertWalk (paramSetOf [⟨"id", "id:str"⟩]) (.catchall [] 5) emptyNode ["lit"] =
      (insertWalk (paramSetOf [⟨"id", "id:str"⟩]) (.catchall [] 5)
        ((alookup emptyNode.children "lit").getD emptyNode) []).map
          (fun ch => Node.mk (aupdate emptyNode.children "lit" ch)
            emptyNode.placeholderChild emptyNode.handlerGroup) :=
  ⟨c3_insert_placeholder.2.1 [⟨"id", "id:str"⟩] (.catchall [] 5) emptyNode
      "\x7bid:str\x7d" [] (by decide),
    c3_insert_placeholder.2.2.1 [⟨"id", "id:str"⟩] (.catchall [] 5) emptyNode
      "lit" [] (by decide)⟩

/-- C6: a catch-all group and a per-method dispatch group can never merge, in
either order; declaring both at the same plain-route entry, or at the same
trie node, fails with a configuration conflict regardless of declaration
order. -/
theorem c6_catchall_dispatch_conflict :
    (∀ (ps : List OParam) (h : Handler) (ps' : List OParam)
      (hs : List (HandlerType × Handler)),
      HandlerGroup.merge (.catchall ps h) (.dispatch ps' hs) =
        .error "catch-all handlers handle all methods - cannot coexist with method-specific handlers" ∧
      HandlerGroup.merge (.dispatch ps' hs) (.catchall ps h) =
        .error "catch-all handlers handle all methods - cannot coexist with method-specific handlers") ∧
    ((findInsertHandlerGroup ⟨emptyNode, [], []⟩ "/ws" [] false (.catchall [] 1)).bind
      (fun rm1 => findInsertHandlerGroup rm1 "/ws" [] false (.dispatch [] [(.httpGet, 2)])) =
      .error "catch-all handlers handle all methods - cannot coexist with method-specific handlers") ∧
    ((findInsertHandlerGroup ⟨emptyNode, [], []⟩ "/ws" [] false (.dispatch [] [(.httpGet, 2)])).bind
      (fun rm1 => findInsertHandlerGroup rm1 "/ws" [] false (.catchall [] 1)) =
      .error "catch-all handlers handle all methods - cannot coexist with method-specific handlers") ∧
    ((findInsertHandlerGroup ⟨emptyNode, [], []⟩ "/ws/\x7bid:str\x7d" [⟨"id", "id:str"⟩]
        false (.catchall [⟨"id", "id:str"⟩] 1)).bind
      (fun rm1 => findInsertHandlerGroup rm1 "/ws/\x7bid:str\x7d" [⟨"id", "id:str"⟩]
        false (.dispatch [⟨"id", "id:str"⟩] [(.httpGet, 2)])) =
      .error "catch-all handlers handle all methods - cannot coexist with method-specific handlers") := by
  exact ⟨fun ps h ps' hs => ⟨rfl, rfl⟩, rfl, rfl, rfl⟩

/-- C5 counterexample: resolving a matched dispatch node for a non-HTTP
scope whose table has no websocket entry does not produce a typed not-found
failure; the code unwraps a missing entry, a panic. -/
theorem c5_websocket_counterexample :
    (resolveAsgiApp rmX ⟨"/x", "websocket", "", none⟩).2 = .error .panicked ∧
    PyErr.panicked ≠ PyErr.notFound := ⟨rfl, by decide⟩

/-- C5 amended: for a scope resolved to a per-method dispatch table, an HTTP
scope whose method has no entry fails with method-not-allowed (distinct from
not-found, as the `GET /x` / `POST /x` / `DELETE` example shows); a non-HTTP
scope with no websocket entry panics on the `unwrap` of the missing entry
rather than failing with a typed not-found outcome. -/
theorem c5_dispatch_amended :
    (∀ (rm : ORouteMap) (sc sc' : ScopeS) (hs : List (String × Handler)),
      parseScopeToRoute rm sc = (sc', .ok (hs, false)) →
      sc'.ty = "http" →
      alookup hs sc'.method = none →
      (resolveAsgiApp rm sc).2 = .error .methodNotAllowed) ∧
    ((resolveAsgiApp rmX ⟨"/x", "http", "DELETE", none⟩).2 = .error .methodNotAllowed ∧
      PyErr.methodNotAllowed ≠ PyErr.notFound) ∧
    (∀ (rm : ORouteMap) (sc sc' : ScopeS) (hs : List (String × Handler)),
      parseScopeToRoute rm sc = (sc', .ok (hs, false)) →
      sc'.ty ≠ "http" →
      alookup hs "websocket" = none →
      (resolveAsgiApp rm sc).2 = .error .panicked) := by
  refine ⟨?_, ⟨rfl, by decide⟩, ?_⟩
  · intro rm sc sc' hs hparse hty hlook
    rw [resolveAsgiApp, hparse]
    simp only [Bool.false_eq_true, if_false, if_pos hty, hlook]
  · intro rm sc sc' hs hparse hty hlook
    rw [resolveAsgiApp, hparse]
    simp only [Bool.false_eq_true, if_false, if_neg hty, hlook]

/-- C5 witness: the amended theorem applied on the concrete map holding
`GET /x` and `POST /x`, for a `DELETE` scope and for a websocket scope. -/
theorem c5_dispatch_amended_witness :
    (resolveAsgiApp rmX ⟨"/x", "http", "DELETE", none⟩).2 = .error .methodNotAllowed ∧
    (resolveAsgiApp rmX ⟨"/x", "websocket", "ws", none⟩).2 = .error .panicked :=
  ⟨c5_dispatch_amended.1 rmX ⟨"/x", "http", "DELETE", none⟩
      ⟨"/x", "http", "DELETE", some ([], [])⟩ [("GET", 11), ("POST", 12)] rfl rfl rfl,
    c5_dispatch_amended.2.2 rmX ⟨"/x", "websocket", "ws", none⟩
      ⟨"/x", "websocket", "ws", some ([], [])⟩ [("GET", 11), ("POST", 12)] rfl
      (by decide) rfl⟩

/-- C7: the parameter-definition set at a position is fixed by the first
declaration configuring it and untouched by later ones; a later declaration
whose definitions differ by value from the recorded ones makes `add_routes`
stop with the configuration error, returning the map as mutated so far; on
the concrete conflicting pair the map still records the first declaration's
definitions and remains resolvable. -/
theorem c7_path_parameters_fixed :
    (∀ (wrap : Handler → Handler) (sps : List String) (r : ORoute) (path : String)
      (params : List OParam) (n : ONode), n.pathParameters = none →
      (configureNode wrap sps r path params n).pathParameters = some params) ∧
    (∀ (wrap : Handler → Handler) (sps : List String) (r : ORoute) (path : String)
      (params : List OParam) (n : ONode) (x : List OParam), n.pathParameters = some x →
      (configureNode wrap sps r path params n).pathParameters = some x) ∧
    (∀ (wrap : Handler → Handler) (rm rm' : ORouteMap) (r : ORoute) (rest : List ORoute)
      (cur : ONode) (recorded : List OParam),
      addNodeToRouteMap wrap rm r = (rm', cur) →
      cur.pathParameters = some recorded →
      recorded ≠ r.pathParameters →
      addRoutes wrap rm (r :: rest) = (rm', .error .improperlyConfigured)) ∧
    ((addRoutes id ormEmpty [routeAInt, routeAStr]).2 = .error .improperlyConfigured ∧
      (parseScopeToRoute rmBad ⟨"/a/42", "http", "GET", none⟩).1.pathParams =
        some ([⟨"x", "x:int"⟩], ["42"]) ∧
      (resolveAsgiApp rmBad ⟨"/a/42", "http", "GET", none⟩).2 = .ok 32) := by
  refine ⟨?_, ?_, ?_, rfl, rfl, rfl⟩
  · intro wrap sps r path params n hn
    cases n with
    | mk comps ch pp ah ia sp =>
      simp only [ONode.pathParameters] at hn
      cases r with
      | mk rpath rparams rkind =>
        cases rkind <;> simp [configureNode, hn, ONode.pathParameters]
  · intro wrap sps r path params n x hn
    cases n with
    | mk comps ch pp ah ia sp =>
      simp only [ONode.pathParameters] at hn
      cases r with
      | mk rpath rparams rkind =>
        cases rkind <;> simp [configureNode, hn, ONode.pathParameters]
  · intro wrap rm rm' r rest cur recorded hadd hcur hne
    rw [addRoutes, hadd]
    simp only [hcur]
    rw [if_neg hne]

/-- C7 witness: the fixing and failing behaviour applied at concrete inputs. -/
theorem c7_path_parameters_fixed_witness :
    (configureNode id [] routeAInt "/a/*" [⟨"x", "x:int"⟩] ONode.empty).pathParameters =
      some [⟨"x", "x:int"⟩] ∧
    addRoutes id (addRoutes id ormEmpty [routeAInt]).1 [routeAStr] =
      ((addNodeToRouteMap id (addRoutes id ormEmpty [routeAInt]).1 routeAStr).1,
        .error .improperlyConfigured) :=
  ⟨c7_path_parameters_fixed.1 id [] routeAInt "/a/*" [⟨"x", "x:int"⟩] ONode.empty rfl,
    c7_path_parameters_fixed.2.2.1 id (addRoutes id ormEmpty [routeAInt]).1
      (addNodeToRouteMap id (addRoutes id ormEmpty [routeAInt]).1 routeAStr).1 routeAStr []
      (addNodeToRouteMap id (addRoutes id ormEmpty [routeAInt]).1 routeAStr).2
      [⟨"x", "x:int"⟩] rfl rfl (by decide)⟩

/-- C10: `parse_scope_to_route` assigns the scope's parsed-parameters field
before checking whether the matched node carries handlers: whenever the
traversal reaches a node with no handler table, the operation fails as
not-found but returns the scope with `path_params` already overwritten by the
parameter parser's result - the failure is not atomic with respect to the
scope object. -/
theorem c10_params_set_before_not_found :
    ∀ (rm : ORouteMap) (sc sc1 : ScopeS) (cur : ONode) (raw : List String),
      rm.plainRoutes.contains (scopePathPrep sc.path) = false →
      otraverse rm.map (getBaseComponents (scopePathPrep sc.path)) sc [] =
        (sc1, .ok (cur, raw)) →
      cur.asgiHandlers = none →
      parseScopeToRoute rm sc =
        ({ sc1 with pathParams := some (cur.pathParameters.getD [], raw) },
          .error .notFound) := by
  intro rm sc sc1 cur raw hplain htrav hah
  rw [parseScopeToRoute]
  simp only [hplain, Bool.false_eq_true, if_false, htrav, hah]

/-- C10 witness: the theorem applied on the concrete map declaring
`GET /a/(id:str)` and a scope for `/a`, whose traversal ends at the
handler-less interior node; the returned scope has its parameter field
overwritten although the lookup failed. -/
theorem c10_params_set_before_not_found_witness :
    parseScopeToRoute rmArt ⟨"/a", "http", "GET", none⟩ =
      (⟨"/a", "http", "GET", some ([], [])⟩, .error .notFound) :=
  c10_params_set_before_not_found rmArt ⟨"/a", "http", "GET", none⟩
    ⟨"/a", "http", "GET", none⟩
    (ONode.mk ["*"]
      [("*", ONode.mk [] [] (some [⟨"id", "id:str"⟩]) (some [("GET", 21)]) false none)]
      none none false none)
    [] rfl rfl rfl

theorem childNodes_measure (n : ONode) (rest : List ONode) :
    ((childNodes n ++ rest).map sizeOf).sum < ((n :: rest).map sizeOf).sum := by
  have key : ∀ ch : List (String × ONode),
      ((ch.map (fun kv => kv.2)).map sizeOf).sum < sizeOf ch := by
    intro ch
    induction ch with
    | nil => simp
    | cons a t ih =>
      obtain ⟨s, nd⟩ := a
      simp only [List.map_cons, List.sum_cons]
      simp only [List.cons.sizeOf_spec, Prod.mk.sizeOf_spec]
      omega
  have h2 := key n.children
  cases n with
  | mk c ch pp ah ia sp =>
    simp only [ONode.children] at h2
    simp only [childNodes, ONode.children, List.map_append, List.sum_append,
      List.map_cons, List.sum_cons]
    simp only [ONode.mk.sizeOf_spec]
    omega

theorem drainSteps_append : ∀ a b : List ONode,
    drainSteps (a ++ b) = drainSteps a + drainSteps b
  | [], b => by simp [drainSteps]
  | n :: rest, b => by
    rw [List.cons_append, drainSteps, drainSteps, ← List.append_assoc,
      drainSteps_append (childNodes n ++ rest) b]
    omega
termination_by a _ => (a.map sizeOf).sum
decreasing_by
  simp_wf
  have h := childNodes_measure n rest
  simp only [List.map_append, List.sum_append, List.map_cons, List.sum_cons] at h ⊢
  omega

theorem drainSteps_eq_sum : ∀ st : List ONode,
    drainSteps st = (st.map ONode.count).sum
  | [] => by simp [drainSteps]
  | n :: rest => by
    have h1 : drainSteps (n :: rest) = drainSteps [n] + drainSteps rest := by
      simpa using drainSteps_append [n] rest
    rw [h1, drainSteps_eq_sum rest]
    simp [ONode.count]

theorem count_eq (n : ONode) :
    ONode.count n = 1 + ((childNodes n).map ONode.count).sum := by
  rw [ONode.count, drainSteps, List.append_nil, drainSteps_eq_sum]

theorem count_configure (wrap : Handler → Handler) (sps : List String) (r : ORoute)
    (path : String) (params : List OParam) (n : ONode) :
    ONode.count (configureNode wrap sps r path params n) = ONode.count n := by
  rw [count_eq, count_eq]
  cases n with
  | mk comps ch pp ah ia sp =>
    cases r with
    | mk rpath rparams rkind =>
      cases rkind <;> simp [configureNode, childNodes, ONode.children]

theorem count_oinsert_empty (wrap : Handler → Handler) (sps : List String) (r : ORoute)
    (path : String) (params : List OParam) :
    ∀ cs : List String,
      ONode.count (oinsert wrap sps r path params ONode.empty cs).1 = cs.length + 1
  | [] => by
    rw [oinsert, count_configure, count_eq]
    simp [childNodes, ONode.empty, ONode.children]
  | c :: rest => by
    rw [oinsert]
    have hchild : (alookup (ONode.empty).children c).getD ONode.empty = ONode.empty := rfl
    rw [hchild]
    simp only [count_eq, childNodes, ONode.children, ONode.empty, aupdate, sinsert]
    simp only [List.map_cons, List.map_nil, List.sum_cons, List.sum_nil, List.length_cons]
    have ih := count_oinsert_empty wrap sps r path params rest
    simp only [ONode.empty] at ih
    omega

/-- C8: the teardown loop of `Drop for RouteMap` is an explicit work-list
iteration - its recursion parameter is the work list, never the tree shape -
that performs exactly one iteration per node of the stacked subtrees; a route
whose processed path nests a placeholder and 50,000 literal segments builds a
trie whose teardown (draining the root's children) takes exactly 50,002
iterations, one per allocated node, regardless of the 50,002-deep nesting. -/
theorem c8_drop_worklist :
    (∀ st : List ONode, drainSteps st = (st.map ONode.count).sum) ∧
    (∀ (wrap : Handler → Handler) (sps : List String) (r : ORoute) (path : String)
      (params : List OParam) (cs : List String),
      ONode.count (oinsert wrap sps r path params ONode.empty cs).1 = cs.length + 1) ∧
    (∀ (wrap : Handler → Handler) (sps : List String) (r : ORoute) (path : String)
      (params : List OParam) (cs : List String),
      drainSteps (childNodes (oinsert wrap sps r path params ONode.empty cs).1) =
        cs.length) ∧
    (∀ (wrap : Handler → Handler) (sps : List String) (r : ORoute) (path : String)
      (params : List OParam),
      drainSteps (childNodes
        (oinsert wrap sps r path params ONode.empty
          ("/" :: "*" :: List.replicate 50000 "a")).1) = 50002) := by
  have hchild : ∀ (wrap : Handler → Handler) (sps : List String) (r : ORoute) (path : String)
      (params : List OParam) (cs : List String),
      drainSteps (childNodes (oinsert wrap sps r path params ONode.empty cs).1) =
        cs.length := by
    intro wrap sps r path params cs
    have hc := count_oinsert_empty wrap sps r path params cs
    rw [count_eq, ← drainSteps_eq_sum] at hc
    omega
  refine ⟨drainSteps_eq_sum, count_oinsert_empty, hchild, ?_⟩
  intro wrap sps r path params
  rw [hchild]
  rw [List.length_cons, List.length_cons, List.length_replicate]

end RMV
